import Mathlib

/-!
Verification of the `cssSelectorBuilder` object and the JSON helpers of
`src/05-objects-tasks.js`.

The builder is a JavaScript object literal.  Every chaining method creates a
new object with `Object.create(cssSelectorBuilder)`, so every derived builder
has the ROOT object (not its parent in the chain) as prototype.  Chain state
is carried purely through the own properties the method copies onto the new
object (`resultString`, `elementOrder`, `idOrder`, `pseudoOrder`, `order`).
A property read falls back to the root's own properties, which are the
constants `resultString = ''`, `elementOrder = 0`, `idOrder = 0`,
`pseudoOrder = 0`; the root has NO initial `order` property, but the
`element` method executes `this.order = 1`, mutating its receiver — when the
receiver is the root itself this plants an own `order` property on the
shared root object.  We therefore model:

* a builder object as five optional own properties (`none` = property absent,
  lookup falls through to the root);
* the root's mutable `order` slot as an explicit piece of global state
  `σ : Option Nat` threaded through every call;
* a receiver as either the root itself or a derived object.

JavaScript's `this.order > num` comparison yields `false` when `order` is
`undefined`; `jsGt` reproduces that.
-/

namespace CoreJs

/-- The two error messages thrown by the builder. -/
inductive SelErr where
  | twiceTime
  | orderErr
deriving DecidableEq, Repr

/-- Own properties of a derived builder object; `none` means the property is
absent and lookup falls through to the root prototype. -/
structure Builder where
  resultString : Option String
  elementOrder : Option Nat
  idOrder : Option Nat
  pseudoOrder : Option Nat
  order : Option Nat
deriving DecidableEq, Repr

/-- A method receiver: the shared root object `cssSelectorBuilder` itself or a
derived builder object. -/
inductive Recv where
  | root
  | obj (b : Builder)
deriving DecidableEq, Repr

/-- JS `x > n` where `x` may be `undefined` (`none`): `undefined > n` is
`false`. -/
def jsGt : Option Nat → Nat → Bool
  | none, _ => false
  | some k, n => decide (k > n)

/-- Property read `this.resultString` (root's own value is `''`). -/
def Recv.getResultString : Recv → String
  | .root => ""
  | .obj b => b.resultString.getD ""

/-- Property read `this.elementOrder` (root's own value is `0`). -/
def Recv.getElementOrder : Recv → Nat
  | .root => 0
  | .obj b => b.elementOrder.getD 0

/-- Property read `this.idOrder` (root's own value is `0`). -/
def Recv.getIdOrder : Recv → Nat
  | .root => 0
  | .obj b => b.idOrder.getD 0

/-- Property read `this.pseudoOrder` (root's own value is `0`). -/
def Recv.getPseudoOrder : Recv → Nat
  | .root => 0
  | .obj b => b.pseudoOrder.getD 0

/-- Property read `this.order`: the root's own `order` slot is the global
state `σ` (absent until some `element` call plants it). -/
def Recv.getOrder (σ : Option Nat) : Recv → Option Nat
  | .root => σ
  | .obj b => match b.order with
    | some k => some k
    | none => σ

/-- Outcome of one chaining call: either a new builder together with the
updated root `order` slot and the (possibly mutated) receiver, or a thrown
error together with the state at the moment of the throw. -/
inductive StepResult where
  | ok (rootOrder : Option Nat) (self : Recv) (builder : Builder)
  | err (e : SelErr) (rootOrder : Option Nat) (self : Recv)
deriving DecidableEq, Repr

/-- `checkQueueCorrectness(num)`: returns `true` when the method must throw
the order error (`this.order > num`). -/
def checkQueueCorrectness (σ : Option Nat) (self : Recv) (num : Nat) : Bool :=
  jsGt (self.getOrder σ) num

/-- `element(value)`.  Note the source's `this.order = 1` mutates the
receiver (the shared root on a first call); the returned builder itself gets
no own `order` property.  `builder.resultString += ...` starts from the
inherited `''`, so it equals plain concatenation. -/
def element (σ : Option Nat) (self : Recv) (value : String) : StepResult :=
  if checkQueueCorrectness σ self 1 then .err .orderErr σ self
  else
    let elementOrder := self.getElementOrder + 1
    if elementOrder > 1 then .err .twiceTime σ self
    else
      let σ' := match self with
        | .root => some 1
        | .obj _ => σ
      let self' := match self with
        | .root => Recv.root
        | .obj b => Recv.obj { b with order := some 1 }
      .ok σ' self'
        { resultString := some (self.getResultString ++ value)
          elementOrder := some elementOrder
          idOrder := none, pseudoOrder := none, order := none }

/-- `id(value)`. -/
def id (σ : Option Nat) (self : Recv) (value : String) : StepResult :=
  if checkQueueCorrectness σ self 2 then .err .orderErr σ self
  else
    let idOrder := self.getIdOrder + 1
    if idOrder > 1 then .err .twiceTime σ self
    else
      .ok σ self
        { resultString := some (self.getResultString ++ "#" ++ value)
          elementOrder := none, idOrder := some idOrder
          pseudoOrder := none, order := some 2 }

/-- `class(value)`. -/
def «class» (σ : Option Nat) (self : Recv) (value : String) : StepResult :=
  if checkQueueCorrectness σ self 3 then .err .orderErr σ self
  else
    .ok σ self
      { resultString := some (self.getResultString ++ "." ++ value)
        elementOrder := none, idOrder := none
        pseudoOrder := none, order := some 3 }

/-- `attr(value)`. -/
def attr (σ : Option Nat) (self : Recv) (value : String) : StepResult :=
  if checkQueueCorrectness σ self 4 then .err .orderErr σ self
  else
    .ok σ self
      { resultString := some (self.getResultString ++ "[" ++ value ++ "]")
        elementOrder := none, idOrder := none
        pseudoOrder := none, order := some 4 }

/-- `pseudoClass(value)`. -/
def pseudoClass (σ : Option Nat) (self : Recv) (value : String) : StepResult :=
  if checkQueueCorrectness σ self 5 then .err .orderErr σ self
  else
    .ok σ self
      { resultString := some (self.getResultString ++ ":" ++ value)
        elementOrder := none, idOrder := none
        pseudoOrder := none, order := some 5 }

/-- `pseudoElement(value)`. -/
def pseudoElement (σ : Option Nat) (self : Recv) (value : String) : StepResult :=
  if checkQueueCorrectness σ self 6 then .err .orderErr σ self
  else
    let pseudoOrder := self.getPseudoOrder + 1
    if pseudoOrder > 1 then .err .twiceTime σ self
    else
      .ok σ self
        { resultString := some (self.getResultString ++ "::" ++ value)
          elementOrder := none, idOrder := none
          pseudoOrder := some pseudoOrder, order := some 6 }

/-- `stringify()`: returns `this.resultString`; it contains no throw. -/
def stringify (self : Recv) : String :=
  self.getResultString

/-- `combine(selector1, combinator, selector2)`.  The body contains no throw
statement; the `Except` result type records that a JS method call could in
principle throw, and the translation shows it never does. -/
def combine (selector1 : Recv) (combinator : String) (selector2 : Recv) :
    Except SelErr Builder :=
  .ok
    { resultString := some (selector1.getResultString ++ " " ++ combinator
        ++ " " ++ selector2.getResultString)
      elementOrder := none, idOrder := none
      pseudoOrder := none, order := none }

/-- A chain operation: one call of one of the six part-adding methods. -/
inductive Op where
  | element (v : String)
  | id (v : String)
  | «class» (v : String)
  | attr (v : String)
  | pseudoClass (v : String)
  | pseudoElement (v : String)
deriving DecidableEq, Repr

/-- Dispatch one chain operation to its method. -/
def step (σ : Option Nat) (self : Recv) : Op → StepResult
  | .element v => element σ self v
  | .id v => id σ self v
  | .«class» v => «class» σ self v
  | .attr v => attr σ self v
  | .pseudoClass v => pseudoClass σ self v
  | .pseudoElement v => pseudoElement σ self v

/-- Run a chain of calls: each successful call's returned builder becomes the
next receiver; a throw aborts the chain.  The root's `order` slot is threaded
through and reported also on failure (mutations before the failing call
persist). -/
def runChain : Option Nat → Recv → List Op → Option Nat × Except SelErr Recv
  | σ, self, [] => (σ, .ok self)
  | σ, self, op :: ops =>
    match step σ self op with
    | .ok σ' _ b => runChain σ' (.obj b) ops
    | .err e σ' _ => (σ', .error e)

/-- The observable outcome of running a chain from the root: the `stringify`
of the final builder, or the thrown error. -/
def chainResult (σ : Option Nat) (ops : List Op) : Except SelErr String :=
  (runChain σ Recv.root ops).2.map stringify

/-! ## Abstract chain semantics

An equivalent, prototype-free description of a single chain run from the
root: the state is the accumulated text together with the kind of the
last-appended part.  We prove below that `runChain` from the root refines
this semantics; the claims about ordering, duplicates and rendered text are
then settled on this simpler state. -/

/-- The six fragment kinds. -/
inductive Kind where
  | element
  | id
  | cls
  | attribute
  | pseudoClass
  | pseudoElement
deriving DecidableEq, Repr

/-- Canonical rank of a kind (the `num` each method passes to
`checkQueueCorrectness`). -/
def rankOf : Kind → Nat
  | .element => 1
  | .id => 2
  | .cls => 3
  | .attribute => 4
  | .pseudoClass => 5
  | .pseudoElement => 6

/-- Kinds permitted at most once per chain. -/
def isSingleton : Kind → Bool
  | .element => true
  | .id => true
  | .pseudoElement => true
  | _ => false

/-- Kind of a chain operation. -/
def kindOf : Op → Kind
  | .element _ => .element
  | .id _ => .id
  | .«class» _ => .cls
  | .attr _ => .attribute
  | .pseudoClass _ => .pseudoClass
  | .pseudoElement _ => .pseudoElement

/-- The text fragment an operation appends: bare element name, `#name`,
`.name`, `[spec]`, `:name`, `::name`. -/
def frag : Op → String
  | .element v => v
  | .id v => "#" ++ v
  | .«class» v => "." ++ v
  | .attr v => "[" ++ v ++ "]"
  | .pseudoClass v => ":" ++ v
  | .pseudoElement v => "::" ++ v

/-- Abstract chain state: accumulated text and kind of the last-appended
part (`none` while the chain is empty). -/
structure St where
  text : String
  lastKind : Option Kind
deriving DecidableEq, Repr

/-- Initial abstract state. -/
def St.init : St := ⟨"", none⟩

/-- Rank of the last-appended part, `0` while the chain is empty. -/
def lastRankOf (st : St) : Nat :=
  match st.lastKind with
  | none => 0
  | some k => rankOf k

/-- Abstract step: order violation when the new rank is below the last rank;
duplicate-singleton violation when a singleton kind is appended twice in a
row; otherwise append the fragment. -/
def absStep (st : St) (op : Op) : Except SelErr St :=
  if lastRankOf st > rankOf (kindOf op) then .error .orderErr
  else if isSingleton (kindOf op) = true ∧ st.lastKind = some (kindOf op) then
    .error .twiceTime
  else .ok ⟨st.text ++ frag op, some (kindOf op)⟩

/-- Abstract run. -/
def absRun : St → List Op → Except SelErr St
  | st, [] => .ok st
  | st, op :: ops =>
    match absStep st op with
    | .ok st' => absRun st' ops
    | .error e => .error e

/-- Correspondence invariant between a concrete state (`σ` = root's `order`
slot, `recv` = current receiver) and an abstract state.  The root's `order`
slot is absent or `1`; a derived builder's own properties are determined by
the kind of the last-appended part. -/
def RState (σ : Option Nat) (recv : Recv) (st : St) : Prop :=
  (σ = none ∨ σ = some 1) ∧
  ((recv = Recv.root ∧ st = St.init) ∨
   (∃ b K, recv = Recv.obj b ∧ st.lastKind = some K ∧
      b.resultString = some st.text ∧
      b.order = (if K = Kind.element then none else some (rankOf K)) ∧
      (K = Kind.element → σ = some 1) ∧
      b.elementOrder = (if K = Kind.element then some 1 else none) ∧
      b.idOrder = (if K = Kind.id then some 1 else none) ∧
      b.pseudoOrder = (if K = Kind.pseudoElement then some 1 else none)))

/-- Relation between a concrete step outcome and an abstract one. -/
def StepMatches (sr : StepResult) (ar : Except SelErr St) : Prop :=
  (∃ σ' self' b st', sr = .ok σ' self' b ∧ ar = .ok st' ∧
    RState σ' (.obj b) st') ∨
  (∃ e σ' self', sr = .err e σ' self' ∧ ar = .error e)

/-- Relation between a concrete run outcome and an abstract one. -/
def RunMatches (cr : Option Nat × Except SelErr Recv)
    (ar : Except SelErr St) : Prop :=
  (∃ σ' recv' st', cr = (σ', .ok recv') ∧ ar = .ok st' ∧
    RState σ' recv' st') ∨
  (∃ σ' e, cr = (σ', .error e) ∧ ar = .error e)

/-- Concatenation of a list of strings. -/
def cat : List String → String
  | [] => ""
  | s :: l => s ++ cat l

/-- Wrap an optional argument as a zero- or one-element operation list. -/
def optTag (mk : String → Op) : Option String → List Op
  | none => []
  | some v => [mk v]

/-- The operation lists matching the valid shape
`(element?, id?, class*, attr*, pseudoClass*, pseudoElement?)`
in canonical rank order. -/
def validOps (e i : Option String) (cs as ps : List String)
    (pe : Option String) : List Op :=
  optTag Op.element e ++ (optTag Op.id i ++ (cs.map Op.«class»
    ++ (as.map Op.attr ++ (ps.map Op.pseudoClass
      ++ optTag Op.pseudoElement pe))))

/-- The receiver as it stands after a call (mutated or not). -/
def receiverAfter : StepResult → Recv
  | .ok _ self _ => self
  | .err _ _ self => self

/-- The root's `order` slot as it stands after a call. -/
def rootOrderAfter : StepResult → Option Nat
  | .ok σ _ _ => σ
  | .err _ σ _ => σ

/-- The caller-visible outcome of a call: the returned builder or the thrown
error. -/
def stepView : StepResult → Except SelErr Builder
  | .ok _ _ b => .ok b
  | .err e _ _ => .error e

end CoreJs

namespace CoreJs

/-! ## JSON helpers (`getJSON` / `fromJSON`)

`getJSON(obj)` is `JSON.stringify(obj)` and `fromJSON(proto, json)` is
`{ ...JSON.parse(json) }` followed by `Object.setPrototypeOf`.  The two
platform builtins are not part of this repository, so they are modelled
concretely: JSON values are an inductive type (integers stand for JSON
numbers; strings are restricted to ones with no `"` or `\` so that no
escaping arises), `JSON.stringify` is a renderer to characters and
`JSON.parse` a fuel-indexed recursive-descent reader of exactly that
grammar (no whitespace, since the renderer emits none). -/

mutual
/-- A JSON value: null, boolean, (integer) number, string, array, object. -/
inductive JVal where
  | jnull
  | jbool (b : Bool)
  | jnum (n : Int)
  | jstr (s : String)
  | jarr (xs : JArr)
  | jobj (fs : JObj)

/-- A JSON array, as a list of values. -/
inductive JArr where
  | anil
  | acons (v : JVal) (rest : JArr)

/-- A JSON object, as an ordered list of key/value fields. -/
inductive JObj where
  | onil
  | ocons (key : String) (v : JVal) (rest : JObj)
end

/-- Decimal digit to character. -/
def digitChar (d : Nat) : Char := Char.ofNat (48 + d)

/-- Decimal rendering of a natural number (big-endian digits). -/
def natChars (n : Nat) : List Char :=
  ((Nat.digits 10 n).reverse).map digitChar

/-- Decimal rendering of an integer, `0` rendered as `"0"`. -/
def intChars (n : Int) : List Char :=
  if n < 0 then '-' :: natChars n.natAbs
  else if n = 0 then ['0']
  else natChars n.toNat

mutual
/-- Modelled from the spec: the text `JSON.stringify` produces for a value
(standard structured serialization; the spec's `encode(object) -> string`). -/
def renderV : JVal → List Char
  | .jnull => ['n', 'u', 'l', 'l']
  | .jbool true => ['t', 'r', 'u', 'e']
  | .jbool false => ['f', 'a', 'l', 's', 'e']
  | .jnum n => intChars n
  | .jstr s => '"' :: s.data ++ ['"']
  | .jarr xs => '[' :: renderElems xs ++ [']']
  | .jobj fs => '\x7b' :: renderFields fs ++ ['\x7d']

/-- Comma-separated renderings of an array's elements. -/
def renderElems : JArr → List Char
  | .anil => []
  | .acons v rest => renderV v ++ renderTail rest

/-- Rendering of the remaining array elements, each with a leading comma. -/
def renderTail : JArr → List Char
  | .anil => []
  | .acons v rest => ',' :: renderV v ++ renderTail rest

/-- Comma-separated renderings of an object's fields. -/
def renderFields : JObj → List Char
  | .onil => []
  | .ocons k v rest =>
    '"' :: k.data ++ ('"' :: ':' :: renderV v) ++ renderFTail rest

/-- Rendering of the remaining object fields, each with a leading comma. -/
def renderFTail : JObj → List Char
  | .onil => []
  | .ocons k v rest =>
    ',' :: '"' :: k.data ++ ('"' :: ':' :: renderV v) ++ renderFTail rest
end

/-- Greedy digit reader: consumes leading decimal digits into `acc`. -/
def parseDigits (acc : Nat) : List Char → Nat × List Char
  | [] => (acc, [])
  | c :: rest =>
    if c.isDigit then parseDigits (acc * 10 + (c.toNat - 48)) rest
    else (acc, c :: rest)

/-- String-body reader: consumes up to the closing `"` (no escapes). -/
def takeStr : List Char → Option (List Char × List Char)
  | [] => none
  | c :: rest =>
    if c = '"' then some ([], rest)
    else
      match takeStr rest with
      | some (s, r) => some (c :: s, r)
      | none => none

mutual
/-- Modelled from the spec: the reader behind `JSON.parse` (the spec's
`decode`), on the exact grammar `renderV` emits; returns the value and the
unread remainder, `none` on malformed input or exhausted fuel. -/
def parseV : Nat → List Char → Option (JVal × List Char)
  | 0, _ => none
  | fuel + 1, cs =>
    match cs with
    | [] => none
    | c :: cs' =>
      if c.isDigit then
        let p := parseDigits 0 (c :: cs')
        some (.jnum (p.1 : Int), p.2)
      else if c = '-' then
        match cs' with
        | c2 :: _ =>
          if c2.isDigit then
            let p := parseDigits 0 cs'
            some (.jnum (-(p.1 : Int)), p.2)
          else none
        | [] => none
      else if c = '"' then
        match takeStr cs' with
        | some (s, r) => some (.jstr (String.mk s), r)
        | none => none
      else if c = '[' then
        match parseElems fuel cs' with
        | some (xs, r) => some (.jarr xs, r)
        | none => none
      else if c = '\x7b' then
        match parseFields fuel cs' with
        | some (fs, r) => some (.jobj fs, r)
        | none => none
      else
        match c :: cs' with
        | 'n' :: 'u' :: 'l' :: 'l' :: rest => some (.jnull, rest)
        | 't' :: 'r' :: 'u' :: 'e' :: rest => some (.jbool true, rest)
        | 'f' :: 'a' :: 'l' :: 's' :: 'e' :: rest => some (.jbool false, rest)
        | _ => none

/-- Array reader, positioned right after `[`. -/
def parseElems (fuel : Nat) (cs : List Char) : Option (JArr × List Char) :=
  match fuel with
  | 0 => none
  | fuel + 1 =>
    if cs.head? = some ']' then some (.anil, cs.tail)
    else
      match parseV fuel cs with
      | some (v, r) =>
        match parseATail fuel r with
        | some (xs, r2) => some (.acons v xs, r2)
        | none => none
      | none => none

/-- Array reader, positioned right after an element: `,` or `]`. -/
def parseATail : Nat → List Char → Option (JArr × List Char)
  | 0, _ => none
  | fuel + 1, cs =>
    match cs with
    | ']' :: rest => some (.anil, rest)
    | ',' :: rest =>
      match parseV fuel rest with
      | some (v, r) =>
        match parseATail fuel r with
        | some (xs, r2) => some (.acons v xs, r2)
        | none => none
      | none => none
    | _ => none

/-- Object reader, positioned right after `{`. -/
def parseFields : Nat → List Char → Option (JObj × List Char)
  | 0, _ => none
  | fuel + 1, cs =>
    match cs with
    | '\x7d' :: rest => some (.onil, rest)
    | '"' :: rest =>
      match takeStr rest with
      | some (k, r) =>
        match r with
        | ':' :: r2 =>
          match parseV fuel r2 with
          | some (v, r3) =>
            match parseOTail fuel r3 with
            | some (fs, r4) => some (.ocons (String.mk k) v fs, r4)
            | none => none
          | none => none
        | _ => none
      | none => none
    | _ => none

/-- Object reader, positioned right after a field: `,` or `}`. -/
def parseOTail : Nat → List Char → Option (JObj × List Char)
  | 0, _ => none
  | fuel + 1, cs =>
    match cs with
    | '\x7d' :: rest => some (.onil, rest)
    | ',' :: '"' :: rest =>
      match takeStr rest with
      | some (k, r) =>
        match r with
        | ':' :: r2 =>
          match parseV fuel r2 with
          | some (v, r3) =>
            match parseOTail fuel r3 with
            | some (fs, r4) => some (.ocons (String.mk k) v fs, r4)
            | none => none
          | none => none
        | _ => none
      | none => none
    | _ => none
end

mutual
/-- Fuel sufficient for `parseV` on the rendering of a value. -/
def needV : JVal → Nat
  | .jnull => 1
  | .jbool _ => 1
  | .jnum _ => 1
  | .jstr _ => 1
  | .jarr xs => 1 + needArr xs
  | .jobj fs => 1 + needObj fs

/-- Fuel sufficient for `parseElems`/`parseATail` on an array's rendering. -/
def needArr : JArr → Nat
  | .anil => 1
  | .acons v rest => 1 + needV v + needArr rest

/-- Fuel sufficient for `parseFields`/`parseOTail` on an object's
rendering. -/
def needObj : JObj → Nat
  | .onil => 1
  | .ocons _ v rest => 1 + needV v + needObj rest
end

/-- A string is representable without escaping: no `"` and no `\`. -/
def strOk (s : String) : Bool :=
  s.data.all fun c => !(c = '"') && !(c = '\\')

/-- Key membership in an object's field list. -/
def keyMem (k : String) : JObj → Bool
  | .onil => false
  | .ocons k2 _ rest => (k = k2) || keyMem k rest

mutual
/-- A value a real JS plain object could hold and round trip: strings need
no escaping, object keys are distinct (JS own properties are). -/
def wfV : JVal → Bool
  | .jnull => true
  | .jbool _ => true
  | .jnum _ => true
  | .jstr s => strOk s
  | .jarr xs => wfArr xs
  | .jobj fs => wfObj fs

/-- Well-formedness of every array element. -/
def wfArr : JArr → Bool
  | .anil => true
  | .acons v rest => wfV v && wfArr rest

/-- Well-formedness of every field: clean key, no duplicate keys, clean
value. -/
def wfObj : JObj → Bool
  | .onil => true
  | .ocons k v rest => strOk k && !keyMem k rest && wfV v && wfObj rest
end

/-- `JSON.stringify` on a modelled value. -/
def JSONstringify (v : JVal) : String := String.mk (renderV v)

/-- `JSON.parse` on a string: read one value and require the input to be
fully consumed; `none` models the thrown `SyntaxError`. -/
def JSONparse (s : String) : Option JVal :=
  match parseV (2 * s.data.length + 2) s.data with
  | some (v, []) => some v
  | _ => none

/-- `getJSON(obj)`: `return JSON.stringify(obj)`. -/
def getJSON (obj : JVal) : String := JSONstringify obj

/-- Index key for spreading an array or string, e.g. `{...[a,b]}` has own
properties `"0"`, `"1"`. -/
def natKey (i : Nat) : String := String.mk (intChars i)

/-- Own enumerable properties `{ ...xs }` of an array. -/
def spreadArr (i : Nat) : JArr → JObj
  | .anil => .onil
  | .acons v rest => .ocons (natKey i) v (spreadArr (i + 1) rest)

/-- Own enumerable properties `{ ...s }` of a string: indexed characters. -/
def spreadStr (i : Nat) : List Char → JObj
  | [] => .onil
  | c :: rest => .ocons (natKey i) (.jstr (String.mk [c])) (spreadStr (i + 1) rest)

/-- Own enumerable properties of `{ ...v }`: an object's fields, an array's
or string's indexed entries, nothing for primitives. -/
def spreadOwn : JVal → JObj
  | .jobj fs => fs
  | .jarr xs => spreadArr 0 xs
  | .jstr s => spreadStr 0 s.data
  | _ => .onil

/-- A JS object as `fromJSON` returns it: own enumerable fields plus the
prototype installed by `Object.setPrototypeOf`. -/
structure JsObject (P : Type) where
  proto : P
  fields : JObj

/-- `fromJSON(proto, json)`: `obj = { ...JSON.parse(json) }` then
`Object.setPrototypeOf(obj, proto)`; `none` when the parse throws. -/
def fromJSON (P : Type) (proto : P) (json : String) : Option (JsObject P) :=
  match JSONparse json with
  | some v => some { proto := proto, fields := spreadOwn v }
  | none => none

/-- The character after a rendered value never continues a number: empty or
a non-digit. -/
def sepOk : List Char → Bool
  | [] => true
  | c :: _ => !c.isDigit

/-- A sample plain object used to instantiate the round-trip theorem. -/
def exObj : JObj :=
  JObj.ocons "a" (JVal.jnum 1)
    (JObj.ocons "b" (JVal.jarr (JArr.acons (JVal.jbool true)
      (JArr.acons JVal.jnull JArr.anil)))
      (JObj.ocons "c" (JVal.jobj (JObj.ocons "x" (JVal.jstr "hi")
        JObj.onil)) JObj.onil))

end CoreJs


namespace CoreJs

/-! ## Correspondence between the concrete and the abstract semantics -/

set_option maxHeartbeats 2000000

/-- One concrete call matches one abstract step. -/
theorem step_abs (σ : Option Nat) (recv : Recv) (st : St) (op : Op)
    (h : RState σ recv st) : StepMatches (step σ recv op) (absStep st op) := by
  obtain ⟨hσ, hcase⟩ := h
  rcases hcase with ⟨hr, hst⟩ | ⟨b, K, hr, hK, hrs, hord, helσ, heo, hio, hpo⟩
  · subst hr; subst hst
    rcases hσ with h1 | h1 <;> subst h1 <;> cases op <;>
      simp [step, element, id, «class», attr, pseudoClass, pseudoElement,
        checkQueueCorrectness, Recv.getOrder, jsGt, Recv.getElementOrder,
        Recv.getIdOrder, Recv.getPseudoOrder, Recv.getResultString,
        absStep, lastRankOf, St.init, kindOf, rankOf, isSingleton,
        StepMatches, RState, frag, String.append_assoc] <;>
      exact ⟨_, _, _, ⟨rfl, rfl, rfl⟩, by simp_all⟩
  · subst hr
    obtain ⟨text, lk⟩ := st
    simp only [] at hK
    subst hK
    cases K <;> cases op <;>
      simp_all [step, element, id, «class», attr, pseudoClass, pseudoElement,
        checkQueueCorrectness, Recv.getOrder, jsGt, Recv.getElementOrder,
        Recv.getIdOrder, Recv.getPseudoOrder, Recv.getResultString,
        absStep, lastRankOf, kindOf, rankOf, isSingleton,
        StepMatches, RState, frag, String.append_assoc] <;>
      exact ⟨_, _, _, ⟨rfl, rfl, rfl⟩, by simp_all⟩

/-- A concrete run matches the abstract run from any related states. -/
theorem runChain_abs (ops : List Op) : ∀ (σ : Option Nat) (recv : Recv)
    (st : St), RState σ recv st →
    RunMatches (runChain σ recv ops) (absRun st ops) := by
  induction ops with
  | nil =>
    intro σ recv st h
    exact Or.inl ⟨σ, recv, st, rfl, rfl, h⟩
  | cons op ops ih =>
    intro σ recv st h
    have hs := step_abs σ recv st op h
    rcases hs with ⟨σ', self', b, st', hsr, har, hR⟩ | ⟨e, σ', self', hsr, har⟩
    · rw [runChain, hsr, absRun, har]
      exact ih σ' (.obj b) st' hR
    · rw [runChain, hsr, absRun, har]
      exact Or.inr ⟨σ', e, rfl, rfl⟩

/-- The invariant holds at the start of a fresh run. -/
theorem RState_init (σ : Option Nat) (hσ : σ = none ∨ σ = some 1) :
    RState σ Recv.root St.init :=
  ⟨hσ, Or.inl ⟨rfl, rfl⟩⟩

/-- Under the invariant, `stringify` returns the abstract text. -/
theorem stringify_of_RState (σ : Option Nat) (recv : Recv) (st : St)
    (h : RState σ recv st) : stringify recv = st.text := by
  rcases h.2 with ⟨hr, hst⟩ | ⟨b, K, hr, _, hrs, _⟩
  · subst hr; subst hst; rfl
  · subst hr
    simp [stringify, Recv.getResultString, hrs]

/-- `runChain` over an appended list runs the two parts in sequence. -/
theorem runChain_append (l1 l2 : List Op) : ∀ (σ : Option Nat) (recv : Recv),
    runChain σ recv (l1 ++ l2) =
      match runChain σ recv l1 with
      | (σ', .ok recv') => runChain σ' recv' l2
      | (σ', .error e) => (σ', .error e) := by
  induction l1 with
  | nil => intro σ recv; rfl
  | cons op l1 ih =>
    intro σ recv
    rw [List.cons_append, runChain, runChain]
    cases step σ recv op with
    | ok σ' self' b => exact ih σ' (.obj b)
    | err e σ' self' => rfl

/-- `absRun` over an appended list runs the two parts in sequence. -/
theorem absRun_append (l1 l2 : List Op) : ∀ (st : St),
    absRun st (l1 ++ l2) =
      match absRun st l1 with
      | .ok st' => absRun st' l2
      | .error e => .error e := by
  induction l1 with
  | nil => intro st; rfl
  | cons op l1 ih =>
    intro st
    rw [List.cons_append, absRun, absRun]
    cases absStep st op with
    | ok st' => exact ih st'
    | error e => rfl

/-- A successful abstract run appends exactly the fragments of its
operations. -/
theorem absRun_text (ops : List Op) : ∀ (st st' : St),
    absRun st ops = .ok st' →
    st'.text = st.text ++ cat (ops.map frag) := by
  induction ops with
  | nil =>
    intro st st' h
    cases h
    simp [cat]
  | cons op ops ih =>
    intro st st' h
    rw [absRun] at h
    cases habs : absStep st op with
    | ok st1 =>
      rw [habs] at h
      have := ih st1 st' h
      rw [absStep] at habs
      split at habs
      · cases habs
      · split at habs
        · cases habs
        · cases habs
          rw [this]
          simp [cat, String.append_assoc]
    | error e => rw [habs] at h; cases h

end CoreJs

namespace CoreJs

/-- Inversion for a successful abstract step. -/
theorem absStep_ok_iff (st : St) (op : Op) (st' : St) :
    absStep st op = Except.ok st' ↔
      lastRankOf st ≤ rankOf (kindOf op) ∧
      ¬(isSingleton (kindOf op) = true ∧ st.lastKind = some (kindOf op)) ∧
      st' = ⟨st.text ++ frag op, some (kindOf op)⟩ := by
  rw [absStep]
  split_ifs with h1 h2
  · constructor
    · intro h; cases h
    · rintro ⟨hle, -, -⟩; omega
  · constructor
    · intro h; cases h
    · rintro ⟨-, hns, -⟩; exact absurd h2 hns
  · constructor
    · intro h; cases h; exact ⟨by omega, h2, rfl⟩
    · rintro ⟨-, -, rfl⟩; rfl

/-- Along a successful abstract run the last rank never decreases. -/
theorem absRun_mono (ops : List Op) : ∀ (st st' : St),
    absRun st ops = .ok st' → lastRankOf st ≤ lastRankOf st' := by
  induction ops with
  | nil => intro st st' h; cases h; exact Nat.le_refl _
  | cons op ops ih =>
    intro st st' h
    rw [absRun] at h
    cases habs : absStep st op with
    | ok st1 =>
      rw [habs] at h
      obtain ⟨hle, -, hst1⟩ := (absStep_ok_iff st op st1).1 habs
      have h2 := ih st1 st' h
      subst hst1
      have h2' : rankOf (kindOf op) ≤ lastRankOf st' := by
        simpa [lastRankOf] using h2
      omega
    | error e => rw [habs] at h; cases h

/-- Every operation of a successful abstract run has rank at most the final
last rank. -/
theorem absRun_rank_le (ops : List Op) : ∀ (st st' : St) (op : Op),
    absRun st ops = .ok st' → op ∈ ops →
    rankOf (kindOf op) ≤ lastRankOf st' := by
  induction ops with
  | nil => intro st st' op h hm; cases hm
  | cons op0 ops ih =>
    intro st st' op h hm
    rw [absRun] at h
    cases habs : absStep st op0 with
    | ok st1 =>
      rw [habs] at h
      obtain ⟨-, -, hst1⟩ := (absStep_ok_iff st op0 st1).1 habs
      rcases List.mem_cons.1 hm with hop | hop
      · subst hop
        have hmono := absRun_mono ops st1 st' h
        subst hst1
        have h2' : rankOf (kindOf op) ≤ lastRankOf st' := by
          simpa [lastRankOf] using hmono
        omega
      · exact ih st1 st' op h hop
    | error e => rw [habs] at h; cases h

/-- After a successful abstract run of a nonempty list, the last kind is the
kind of the last operation. -/
theorem absRun_last (ops : List Op) : ∀ (st st' : St) (opL : Op),
    absRun st ops = .ok st' → ops.getLast? = some opL →
    st'.lastKind = some (kindOf opL) := by
  induction ops with
  | nil => intro st st' opL h hl; cases hl
  | cons op0 ops ih =>
    intro st st' opL h hl
    rw [absRun] at h
    cases habs : absStep st op0 with
    | ok st1 =>
      rw [habs] at h
      obtain ⟨-, -, hst1⟩ := (absStep_ok_iff st op0 st1).1 habs
      cases ops with
      | nil =>
        cases h
        simp only [List.getLast?_singleton, Option.some.injEq] at hl
        subst hl
        rw [hst1]
      | cons op1 ops' =>
        rw [List.getLast?_cons_cons] at hl
        exact ih st1 st' opL h hl
    | error e => rw [habs] at h; cases h

/-- Concatenation distributes over list append. -/
theorem cat_append (a b : List String) : cat (a ++ b) = cat a ++ cat b := by
  induction a with
  | nil => simp [cat, String.empty_append]
  | cons s a ih => simp [cat, ih, String.append_assoc]

/-- Running a block of same-kind repeatable operations from a state of rank
at most that kind's rank succeeds and appends the fragments. -/
theorem absRun_stage_list (mk : String → Op) (k : Kind)
    (hk : ∀ v, kindOf (mk v) = k) (hf : isSingleton k = false) :
    ∀ (l : List String) (st : St), lastRankOf st ≤ rankOf k →
    ∃ st', absRun st (l.map mk) = .ok st' ∧
      st'.text = st.text ++ cat ((l.map mk).map frag) ∧
      lastRankOf st' ≤ rankOf k ∧
      (st'.lastKind = st.lastKind ∨ st'.lastKind = some k) := by
  intro l
  induction l with
  | nil =>
    intro st hle
    exact ⟨st, rfl, by simp [cat, String.append_empty], hle, Or.inl rfl⟩
  | cons v l ih =>
    intro st hle
    have hstep : absStep st (mk v) = .ok ⟨st.text ++ frag (mk v), some (kindOf (mk v))⟩ :=
      (absStep_ok_iff _ _ _).2 ⟨by rw [hk]; exact hle, by rw [hk]; simp [hf], rfl⟩
    have hrank : lastRankOf ⟨st.text ++ frag (mk v), some (kindOf (mk v))⟩ = rankOf k := by
      simp [lastRankOf, hk]
    obtain ⟨st', hrun, htext, hle', hkind⟩ :=
      ih ⟨st.text ++ frag (mk v), some (kindOf (mk v))⟩ (by rw [hrank])
    refine ⟨st', ?_, ?_, hle', ?_⟩
    · rw [List.map_cons, absRun, hstep]
      exact hrun
    · rw [htext]
      simp [cat, String.append_assoc]
    · rcases hkind with h | h
      · rw [h]; simp [hk]
      · exact Or.inr h

/-- Running an optional single operation from a state of rank at most its
kind's rank, whose last kind differs from that kind, succeeds. -/
theorem absRun_stage_opt (mk : String → Op) (k : Kind)
    (hk : ∀ v, kindOf (mk v) = k) :
    ∀ (o : Option String) (st : St), lastRankOf st ≤ rankOf k →
    st.lastKind ≠ some k →
    ∃ st', absRun st (optTag mk o) = .ok st' ∧
      st'.text = st.text ++ cat ((optTag mk o).map frag) ∧
      lastRankOf st' ≤ rankOf k ∧
      (st'.lastKind = st.lastKind ∨ st'.lastKind = some k) := by
  intro o st hle hne
  cases o with
  | none =>
    exact ⟨st, rfl, by simp [optTag, cat, String.append_empty], hle, Or.inl rfl⟩
  | some v =>
    have hstep : absStep st (mk v) = .ok ⟨st.text ++ frag (mk v), some (kindOf (mk v))⟩ :=
      (absStep_ok_iff _ _ _).2 ⟨by rw [hk]; exact hle, by rw [hk]; tauto, rfl⟩
    refine ⟨⟨st.text ++ frag (mk v), some (kindOf (mk v))⟩, ?_, ?_, ?_, ?_⟩
    · rw [optTag, absRun, hstep]; rfl
    · simp [optTag, cat, String.append_empty]
    · simp [lastRankOf, hk]
    · rw [hk]; exact Or.inr rfl

end CoreJs

namespace CoreJs

/-- Ranks identify kinds. -/
theorem rankOf_inj (k1 k2 : Kind) (h : rankOf k1 = rankOf k2) : k1 = k2 := by
  cases k1 <;> cases k2 <;> first | rfl | (exfalso; simp [rankOf] at h)

/-- A valid-shape chain succeeds abstractly and renders the concatenation of
its fragments. -/
theorem validOps_abs (e i : Option String) (cs as ps : List String)
    (pe : Option String) :
    ∃ st', absRun St.init (validOps e i cs as ps pe) = .ok st' ∧
      st'.text = cat ((validOps e i cs as ps pe).map frag) := by
  obtain ⟨st1, hr1, ht1, hle1, hk1⟩ :=
    absRun_stage_opt Op.element Kind.element (fun v => rfl) e St.init
      (by decide) (by decide)
  obtain ⟨st2, hr2, ht2, hle2, hk2⟩ :=
    absRun_stage_opt Op.id Kind.id (fun v => rfl) i st1
      (Nat.le_trans hle1 (by decide))
      (by rcases hk1 with h | h <;> simp [h, St.init])
  obtain ⟨st3, hr3, ht3, hle3, hk3⟩ :=
    absRun_stage_list Op.«class» Kind.cls (fun v => rfl) rfl cs st2
      (Nat.le_trans hle2 (by decide))
  obtain ⟨st4, hr4, ht4, hle4, hk4⟩ :=
    absRun_stage_list Op.attr Kind.attribute (fun v => rfl) rfl as st3
      (Nat.le_trans hle3 (by decide))
  obtain ⟨st5, hr5, ht5, hle5, hk5⟩ :=
    absRun_stage_list Op.pseudoClass Kind.pseudoClass (fun v => rfl) rfl ps st4
      (Nat.le_trans hle4 (by decide))
  obtain ⟨st6, hr6, ht6, hle6, hk6⟩ :=
    absRun_stage_opt Op.pseudoElement Kind.pseudoElement (fun v => rfl) pe st5
      (Nat.le_trans hle5 (by decide))
      (by rcases hk5 with h5 | h5 <;> rcases hk4 with h4 | h4 <;>
          rcases hk3 with h3 | h3 <;> rcases hk2 with h2 | h2 <;>
          rcases hk1 with h1 | h1 <;> simp_all [St.init])
  refine ⟨st6, ?_, ?_⟩
  · simp only [validOps, absRun_append, hr1, hr2, hr3, hr4, hr5, hr6]
  · rw [ht6, ht5, ht4, ht3, ht2, ht1]
    simp [validOps, cat_append, List.map_append, String.append_assoc,
      String.empty_append, St.init]

/-- C1: every chain of calls in valid rank order
`(element?, id?, class*, attr*, pseudoClass*, pseudoElement?)` raises no
error, and `stringify()` returns exactly the concatenation of the fragments
with their per-kind punctuation (bare element, `#id`, `.class`, `[attr]`,
`:pseudoClass`, `::pseudoElement`) and no extra separators. -/
theorem claim1_valid_rank_order_stringify (e i : Option String)
    (cs as ps : List String) (pe : Option String) :
    chainResult none (validOps e i cs as ps pe) =
      .ok (cat ((validOps e i cs as ps pe).map frag)) := by
  obtain ⟨st', habs, htext⟩ := validOps_abs e i cs as ps pe
  have hm := runChain_abs (validOps e i cs as ps pe) none Recv.root St.init
    (RState_init none (Or.inl rfl))
  rcases hm with ⟨σ', recv', st'', hcr, har, hR⟩ | ⟨σ', e', hcr, har⟩
  · rw [habs] at har
    cases har
    rw [chainResult, hcr]
    show Except.map stringify (.ok recv') = _
    rw [Except.map, stringify_of_RState σ' recv' st' hR, htext]
  · rw [habs] at har
    cases har

end CoreJs

namespace CoreJs

/-- C2 counterexample: the chain `id('x').class('c')` succeeds and contains
an `id` fragment, yet the second `id` call on it throws the ORDER error, not
the duplicate-singleton error the claim promises. -/
theorem claim2_counterexample :
    chainResult none [Op.id "x", Op.«class» "c"] = .ok "#x.c" ∧
    chainResult none [Op.id "x", Op.«class» "c", Op.id "y"] =
      .error SelErr.orderErr ∧
    SelErr.orderErr ≠ SelErr.twiceTime := by
  refine ⟨rfl, rfl, by decide⟩

/-- C2 (amended): invoking `element`, `id` or `pseudoElement` a second time
on a successfully built chain that already contains that kind always throws,
but the error depends on the rank of the last-appended part: the
duplicate-singleton error when that rank is at most the repeated kind's rank
(i.e. the repeated kind was the last part appended), the order-violation
error otherwise. -/
theorem claim2_duplicate_singleton_error (ops : List Op) (op2 opL : Op)
    (hsing : isSingleton (kindOf op2) = true)
    (hok : ∃ σ0 recv0, runChain none Recv.root ops = (σ0, Except.ok recv0))
    (hmem : ∃ op1 ∈ ops, kindOf op1 = kindOf op2)
    (hlast : ops.getLast? = some opL) :
    (runChain none Recv.root (ops ++ [op2])).2 =
      .error (if rankOf (kindOf opL) ≤ rankOf (kindOf op2)
        then SelErr.twiceTime else SelErr.orderErr) := by
  obtain ⟨σ0, recv0, hrun⟩ := hok
  have hm := runChain_abs ops none Recv.root St.init
    (RState_init none (Or.inl rfl))
  rcases hm with ⟨σ1, recv1, st', hcr, har, hR⟩ | ⟨σ1, e1, hcr, har⟩
  swap
  · rw [hrun] at hcr
    simp at hcr
  obtain ⟨op1, hm1, hk1⟩ := hmem
  have hrank : rankOf (kindOf op2) ≤ lastRankOf st' := by
    have h := absRun_rank_le ops St.init st' op1 har hm1
    rwa [hk1] at h
  have hlk : st'.lastKind = some (kindOf opL) :=
    absRun_last ops St.init st' opL har hlast
  have hlr : lastRankOf st' = rankOf (kindOf opL) := by
    simp [lastRankOf, hlk]
  have hkey : runChain none Recv.root (ops ++ [op2]) =
      runChain σ1 recv1 [op2] := by
    rw [runChain_append, hcr]
  rw [hkey]
  have hstep := step_abs σ1 recv1 st' op2 hR
  by_cases hcase : rankOf (kindOf opL) ≤ rankOf (kindOf op2)
  · have heq : rankOf (kindOf opL) = rankOf (kindOf op2) :=
      Nat.le_antisymm hcase (hlr ▸ hrank)
    have hkeq : kindOf opL = kindOf op2 := rankOf_inj _ _ heq
    have hng : ¬(lastRankOf st' > rankOf (kindOf op2)) := by
      rw [hlr, heq]; omega
    have habs : absStep st' op2 = .error .twiceTime := by
      rw [absStep, if_neg hng, if_pos ⟨hsing, by rw [hlk, hkeq]⟩]
    rcases hstep with ⟨σ2, self2, b2, st2, hsr, har2, -⟩ |
      ⟨e2, σ2, self2, hsr, har2⟩
    · rw [habs] at har2; cases har2
    · rw [habs] at har2
      cases har2
      rw [runChain, hsr]
      simp [hcase]
  · have hgt : lastRankOf st' > rankOf (kindOf op2) := by
      rw [hlr]; omega
    have habs : absStep st' op2 = .error .orderErr := by
      rw [absStep, if_pos hgt]
    rcases hstep with ⟨σ2, self2, b2, st2, hsr, har2, -⟩ |
      ⟨e2, σ2, self2, hsr, har2⟩
    · rw [habs] at har2; cases har2
    · rw [habs] at har2
      cases har2
      rw [runChain, hsr]
      simp [hcase]

/-- C2 amended witness: `id('x')` then `id('y')` throws the
duplicate-singleton error. -/
theorem claim2_duplicate_singleton_error_witness :
    (runChain none Recv.root ([Op.id "x"] ++ [Op.id "y"])).2 =
      .error (if rankOf (kindOf (Op.id "x")) ≤ rankOf (kindOf (Op.id "y"))
        then SelErr.twiceTime else SelErr.orderErr) :=
  claim2_duplicate_singleton_error [Op.id "x"] (Op.id "y") (Op.id "x") rfl
    ⟨none, Recv.obj ⟨some "#x", none, some 1, none, some 2⟩, rfl⟩
    ⟨Op.id "x", by decide, rfl⟩ rfl

/-- C3: after a successfully built nonempty chain, appending a part of rank
strictly lower than the last-appended part's rank throws the
order-violation error, while appending a part of equal rank never throws the
order-violation error (it may still throw the duplicate-singleton error). -/
theorem claim3_order_violation (ops : List Op) (op2 opL : Op)
    (hok : ∃ σ0 recv0, runChain none Recv.root ops = (σ0, Except.ok recv0))
    (hlast : ops.getLast? = some opL) :
    (rankOf (kindOf op2) < rankOf (kindOf opL) →
      (runChain none Recv.root (ops ++ [op2])).2 = .error SelErr.orderErr) ∧
    (rankOf (kindOf op2) = rankOf (kindOf opL) →
      (runChain none Recv.root (ops ++ [op2])).2 ≠ .error SelErr.orderErr) := by
  obtain ⟨σ0, recv0, hrun⟩ := hok
  have hm := runChain_abs ops none Recv.root St.init
    (RState_init none (Or.inl rfl))
  rcases hm with ⟨σ1, recv1, st', hcr, har, hR⟩ | ⟨σ1, e1, hcr, har⟩
  swap
  · rw [hrun] at hcr
    simp at hcr
  have hlk : st'.lastKind = some (kindOf opL) :=
    absRun_last ops St.init st' opL har hlast
  have hlr : lastRankOf st' = rankOf (kindOf opL) := by
    simp [lastRankOf, hlk]
  have hkey : runChain none Recv.root (ops ++ [op2]) =
      runChain σ1 recv1 [op2] := by
    rw [runChain_append, hcr]
  rw [hkey]
  have hstep := step_abs σ1 recv1 st' op2 hR
  constructor
  · intro hlt
    have hgt : lastRankOf st' > rankOf (kindOf op2) := by
      rw [hlr]; omega
    have habs : absStep st' op2 = .error .orderErr := by
      rw [absStep, if_pos hgt]
    rcases hstep with ⟨σ2, self2, b2, st2, hsr, har2, -⟩ |
      ⟨e2, σ2, self2, hsr, har2⟩
    · rw [habs] at har2; cases har2
    · rw [habs] at har2
      cases har2
      rw [runChain, hsr]
  · intro heq
    have hno : ¬(lastRankOf st' > rankOf (kindOf op2)) := by
      rw [hlr, heq]; omega
    rcases hstep with ⟨σ2, self2, b2, st2, hsr, har2, -⟩ |
      ⟨e2, σ2, self2, hsr, har2⟩
    · rw [runChain, hsr]
      simp [runChain]
    · rw [absStep, if_neg hno] at har2
      by_cases h2 : isSingleton (kindOf op2) = true ∧
        st'.lastKind = some (kindOf op2)
      · rw [if_pos h2] at har2
        cases har2
        rw [runChain, hsr]
        simp
      · rw [if_neg h2] at har2
        cases har2

/-- C3 witness: `class('x').element('a')` throws the order error (an
explicit instance of the claim, covering the spec's example), and repeating
`class` at equal rank does not throw the order error. -/
theorem claim3_order_violation_witness :
    ((rankOf (kindOf (Op.element "a")) < rankOf (kindOf (Op.«class» "x")) →
      (runChain none Recv.root ([Op.«class» "x"] ++ [Op.element "a"])).2 =
        .error SelErr.orderErr) ∧
    (rankOf (kindOf (Op.element "a")) = rankOf (kindOf (Op.«class» "x")) →
      (runChain none Recv.root ([Op.«class» "x"] ++ [Op.element "a"])).2 ≠
        .error SelErr.orderErr)) ∧
    (runChain none Recv.root ([Op.«class» "x"] ++ [Op.element "a"])).2 =
      .error SelErr.orderErr := by
  have h := claim3_order_violation [Op.«class» "x"] (Op.element "a")
    (Op.«class» "x")
    ⟨none, Recv.obj ⟨some ".x", none, none, none, some 3⟩, rfl⟩ rfl
  exact ⟨h, h.1 (by decide)⟩

end CoreJs

namespace CoreJs

/-- C4: `combine` renders the two selectors' texts joined by the combinator
token with exactly one space on each side, whatever the token is. -/
theorem claim4_combine_exact_format (A : Recv) (c : String) (B : Recv) :
    (combine A c B).map (fun b => stringify (Recv.obj b)) =
      .ok (stringify A ++ " " ++ c ++ " " ++ stringify B) := rfl

/-- C7: `combine` never throws (it always returns a builder) and
`stringify` is a pure accessor returning the accumulated string. -/
theorem claim7_combine_stringify_never_fail (A : Recv) (c : String)
    (B : Recv) :
    (∃ b, combine A c B = Except.ok b) ∧
    (∀ e : SelErr, combine A c B ≠ Except.error e) ∧
    stringify A = A.getResultString := by
  refine ⟨⟨_, rfl⟩, ?_, rfl⟩
  intro e h
  simp [combine] at h

/-- C6: when a chain operation throws, the root's `order` slot and the
receiver are exactly as they were before the call (and no builder is
returned: the error constructor carries none). -/
theorem claim6_error_atomicity (σ : Option Nat) (recv : Recv) (op : Op)
    (e : SelErr) (σ' : Option Nat) (recv' : Recv)
    (h : step σ recv op = .err e σ' recv') : σ' = σ ∧ recv' = recv := by
  cases op <;>
    simp only [step, element, id, «class», attr, pseudoClass,
      pseudoElement] at h <;>
    split_ifs at h <;> simp_all

/-- C6 witness: a duplicate `element` call throws with the state intact. -/
theorem claim6_error_atomicity_witness :
    (none : Option Nat) = none ∧
      Recv.obj ⟨some "a", some 1, none, none, none⟩ =
        Recv.obj ⟨some "a", some 1, none, none, none⟩ :=
  claim6_error_atomicity none (Recv.obj ⟨some "a", some 1, none, none, none⟩)
    (Op.element "b") SelErr.twiceTime none
    (Recv.obj ⟨some "a", some 1, none, none, none⟩) (by decide)

/-- C5 counterexample: calling `element` on the root builder plants
`order = 1` on the shared root (the source's `this.order = 1`), so the
receiver is NOT left unchanged. -/
theorem claim5_counterexample :
    rootOrderAfter (step none Recv.root (Op.element "a")) = some 1 ∧
      some 1 ≠ (none : Option Nat) := ⟨rfl, by decide⟩

/-- C5 (amended): every part-adding operation returns a newly created
builder and never changes its receiver's accumulated text or occurrence
counters; every operation except `element` leaves the receiver (and the
shared root's `order` slot) entirely unchanged, but a successful `element`
call sets its receiver's `order` field to `1` — on the shared root builder
when called on it. -/
theorem claim5_no_mutation_except_element_order (σ : Option Nat)
    (recv : Recv) (op : Op) (σ' : Option Nat) (recv' : Recv) (b : Builder)
    (h : step σ recv op = .ok σ' recv' b) :
    stringify recv' = stringify recv ∧
    recv'.getElementOrder = recv.getElementOrder ∧
    recv'.getIdOrder = recv.getIdOrder ∧
    recv'.getPseudoOrder = recv.getPseudoOrder ∧
    ((∀ v, op ≠ Op.element v) → σ' = σ ∧ recv' = recv) ∧
    (∀ v, op = Op.element v →
      (recv = Recv.root → σ' = some 1 ∧ recv' = Recv.root) ∧
      (∀ b0, recv = Recv.obj b0 → σ' = σ ∧
        recv' = Recv.obj { b0 with order := some 1 })) := by
  cases op <;> cases recv <;>
    simp only [step, element, id, «class», attr, pseudoClass,
      pseudoElement] at h <;>
    split_ifs at h <;>
    injection h with h1 h2 h3 <;>
    subst h1 <;> subst h2 <;> subst h3 <;>
    simp [stringify, Recv.getResultString, Recv.getElementOrder,
      Recv.getIdOrder, Recv.getPseudoOrder]

/-- C5 amended witness: a `class` call on the root changes nothing. -/
theorem claim5_no_mutation_except_element_order_witness :
    stringify Recv.root = stringify Recv.root ∧
    Recv.root.getElementOrder = Recv.root.getElementOrder ∧
    Recv.root.getIdOrder = Recv.root.getIdOrder ∧
    Recv.root.getPseudoOrder = Recv.root.getPseudoOrder ∧
    ((∀ v, Op.«class» "c" ≠ Op.element v) →
      (none : Option Nat) = none ∧ Recv.root = Recv.root) ∧
    (∀ v, Op.«class» "c" = Op.element v →
      (Recv.root = Recv.root → (none : Option Nat) = some 1 ∧
        Recv.root = Recv.root) ∧
      (∀ b0, Recv.root = Recv.obj b0 → (none : Option Nat) = none ∧
        Recv.root = Recv.obj { b0 with order := some 1 })) :=
  claim5_no_mutation_except_element_order none Recv.root (Op.«class» "c")
    none Recv.root ⟨some ".c", none, none, none, some 3⟩ (by decide)

/-- C9: the root builder's accumulated text is the empty string, and no
chain operation on the root ever changes that: the receiver handed back is
the root itself, still rendering `''`. -/
theorem claim9_root_stringify_empty :
    stringify Recv.root = "" ∧
    ∀ (σ : Option Nat) (op : Op),
      receiverAfter (step σ Recv.root op) = Recv.root ∧
      stringify (receiverAfter (step σ Recv.root op)) = "" := by
  refine ⟨rfl, fun σ op => ?_⟩
  cases op <;>
    simp only [step, element, id, «class», attr, pseudoClass,
      pseudoElement] <;>
    split_ifs <;>
    simp [receiverAfter, stringify, Recv.getResultString]

end CoreJs

namespace CoreJs

/-- The caller-visible outcome of a single call does not depend on whether
the root's `order` slot is absent or `1`. -/
theorem step_sigma_agree (op : Op) (recv : Recv) (σa σb : Option Nat)
    (ha : σa = none ∨ σa = some 1) (hb : σb = none ∨ σb = some 1) :
    stepView (step σa recv op) = stepView (step σb recv op) := by
  have hab : ∀ n, 1 ≤ n → jsGt σa n = jsGt σb n := by
    intro n hn
    rcases ha with rfl | rfl <;> rcases hb with rfl | rfl <;>
      simp [jsGt] <;> omega
  cases recv with
  | root =>
    cases op <;>
      simp only [step, element, id, «class», attr, pseudoClass,
        pseudoElement, checkQueueCorrectness, Recv.getOrder] <;>
      simp only [hab 1 (by norm_num), hab 2 (by norm_num),
        hab 3 (by norm_num), hab 4 (by norm_num), hab 5 (by norm_num),
        hab 6 (by norm_num)] <;>
      split_ifs <;> rfl
  | obj b =>
    obtain ⟨rs, eo, io, po, ord⟩ := b
    cases ord with
    | none =>
      cases op <;>
        simp only [step, element, id, «class», attr, pseudoClass,
          pseudoElement, checkQueueCorrectness, Recv.getOrder] <;>
        simp only [hab 1 (by norm_num), hab 2 (by norm_num),
          hab 3 (by norm_num), hab 4 (by norm_num), hab 5 (by norm_num),
          hab 6 (by norm_num)] <;>
        split_ifs <;> rfl
    | some k =>
      cases op <;>
        simp only [step, element, id, «class», attr, pseudoClass,
          pseudoElement, checkQueueCorrectness, Recv.getOrder] <;>
        split_ifs <;> rfl

/-- A call keeps the root's `order` slot in {absent, 1}. -/
theorem step_sigma_preserve (op : Op) (recv : Recv) (σ : Option Nat)
    (h : σ = none ∨ σ = some 1) :
    rootOrderAfter (step σ recv op) = none ∨
      rootOrderAfter (step σ recv op) = some 1 := by
  cases op <;> cases recv <;>
    simp only [step, element, id, «class», attr, pseudoClass,
      pseudoElement] <;>
    split_ifs <;>
    simp [rootOrderAfter] <;> tauto

/-- A whole chain's visible outcome does not depend on whether the root's
`order` slot starts absent or `1`. -/
theorem runChain_sigma_agree (ops : List Op) : ∀ (recv : Recv)
    (σa σb : Option Nat),
    (σa = none ∨ σa = some 1) → (σb = none ∨ σb = some 1) →
    (runChain σa recv ops).2 = (runChain σb recv ops).2 := by
  induction ops with
  | nil => intro recv σa σb ha hb; rfl
  | cons op ops ih =>
    intro recv σa σb ha hb
    have hv := step_sigma_agree op recv σa σb ha hb
    have hpa := step_sigma_preserve op recv σa ha
    have hpb := step_sigma_preserve op recv σb hb
    rcases hca : step σa recv op with ⟨σa', sa, ba⟩ | ⟨ea, σa', sa⟩ <;>
      rcases hcb : step σb recv op with ⟨σb', sb, bb⟩ | ⟨eb, σb', sb⟩ <;>
      rw [hca, hcb] at hv <;> simp only [stepView] at hv <;>
      rw [runChain, runChain, hca, hcb]
    · cases hv
      rw [hca] at hpa
      rw [hcb] at hpb
      simp only [rootOrderAfter] at hpa hpb
      exact ih (.obj ba) σa' σb' hpa hpb
    · cases hv
    · cases hv
    · cases hv
      rfl

/-- A whole run keeps the root's `order` slot in {absent, 1}, also when it
ends in a throw. -/
theorem runChain_sigma_preserve (ops : List Op) : ∀ (recv : Recv)
    (σ : Option Nat), (σ = none ∨ σ = some 1) →
    ((runChain σ recv ops).1 = none ∨ (runChain σ recv ops).1 = some 1) := by
  induction ops with
  | nil => intro recv σ h; exact h
  | cons op ops ih =>
    intro recv σ h
    have hp := step_sigma_preserve op recv σ h
    rcases hca : step σ recv op with ⟨σ', s', b'⟩ | ⟨e, σ', s'⟩ <;>
      rw [hca] at hp <;> simp only [rootOrderAfter] at hp <;>
      rw [runChain, hca]
    · exact ih (.obj b') σ' hp
    · exact hp

/-- C8: noninterference between chains.  The observable result of any chain
run from the root (its `stringify` or its error) is the same whether the
global root state is fresh (`order` absent) or polluted by previously built
chains (`order = 1`), and every run leaves the root state inside that
two-value set, so prior successful constructions cannot change what a later
chain observes. -/
theorem claim8_noninterference :
    (∀ (ops : List Op) (σ : Option Nat), σ = none ∨ σ = some 1 →
      chainResult σ ops = chainResult none ops) ∧
    (∀ (ops : List Op) (σ : Option Nat), σ = none ∨ σ = some 1 →
      (runChain σ Recv.root ops).1 = none ∨
        (runChain σ Recv.root ops).1 = some 1) := by
  constructor
  · intro ops σ h
    rw [chainResult, chainResult,
      runChain_sigma_agree ops Recv.root σ none h (Or.inl rfl)]
  · intro ops σ h
    exact runChain_sigma_preserve ops Recv.root σ h

/-- C8 witness: a concrete chain behaves identically from the polluted
state, and a concrete run keeps the root state in the two-value set. -/
theorem claim8_noninterference_witness :
    chainResult (some 1) [Op.id "x"] = chainResult none [Op.id "x"] ∧
    ((runChain (some 1) Recv.root [Op.element "a"]).1 = none ∨
      (runChain (some 1) Recv.root [Op.element "a"]).1 = some 1) :=
  ⟨claim8_noninterference.1 [Op.id "x"] (some 1) (Or.inr rfl),
   claim8_noninterference.2 [Op.element "a"] (some 1) (Or.inr rfl)⟩

end CoreJs

namespace CoreJs

/-! ## Round trip of the JSON helpers -/

/-- `digitChar` of a decimal digit is a digit character. -/
theorem digitChar_isDigit (d : Nat) (h : d < 10) :
    (digitChar d).isDigit = true := by
  interval_cases d <;> decide

/-- `digitChar` inverts back to the digit. -/
theorem digitChar_toNat (d : Nat) (h : d < 10) :
    (digitChar d).toNat - 48 = d := by
  interval_cases d <;> decide

/-- `parseDigits` consumes exactly a block of rendered digits. -/
theorem parseDigits_spec (ds : List Nat) : ∀ (acc : Nat) (rest : List Char),
    (∀ d ∈ ds, d < 10) → sepOk rest = true →
    parseDigits acc (ds.map digitChar ++ rest) =
      (ds.foldl (fun a d => a * 10 + d) acc, rest) := by
  induction ds with
  | nil =>
    intro acc rest hd hs
    cases rest with
    | nil => rfl
    | cons c r =>
      simp only [sepOk, Bool.not_eq_true'] at hs
      rw [List.map_nil, List.nil_append, parseDigits, if_neg (by simp [hs]),
        List.foldl_nil]
  | cons d ds ih =>
    intro acc rest hd hs
    have hd0 : d < 10 := hd d (List.mem_cons_self d ds)
    rw [List.map_cons, List.cons_append, parseDigits,
      if_pos (digitChar_isDigit d hd0), digitChar_toNat d hd0,
      ih _ rest (fun x hx => hd x (List.mem_cons_of_mem d hx)) hs,
      List.foldl_cons]

/-- Horner evaluation of a big-endian digit list. -/
theorem foldl_horner (l : List Nat) : ∀ (acc : Nat),
    l.reverse.foldl (fun a d => a * 10 + d) acc =
      acc * 10 ^ l.length + Nat.ofDigits 10 l := by
  induction l with
  | nil => intro acc; simp
  | cons d l ih =>
    intro acc
    rw [List.reverse_cons, List.foldl_append, ih]
    simp only [List.foldl_cons, List.foldl_nil, List.length_cons,
      Nat.ofDigits_cons, pow_succ]
    ring

/-- Reading back the decimal rendering of `n` yields `n`. -/
theorem parseDigits_natChars (n : Nat) (rest : List Char)
    (hs : sepOk rest = true) :
    parseDigits 0 (natChars n ++ rest) = (n, rest) := by
  rw [natChars, parseDigits_spec _ 0 rest
    (fun d hd => Nat.digits_lt_base (by norm_num) (List.mem_reverse.1 hd))
    hs]
  rw [foldl_horner, Nat.ofDigits_digits, Nat.zero_mul, Nat.zero_add]

end CoreJs

namespace CoreJs

/-- `takeStr` consumes exactly a quote-free body up to the closing quote. -/
theorem takeStr_append (l : List Char) : ∀ (rest : List Char),
    (∀ c ∈ l, ¬(c = '"')) →
    takeStr (l ++ '"' :: rest) = some (l, rest) := by
  induction l with
  | nil =>
    intro rest hq
    rw [List.nil_append, takeStr, if_pos rfl]
  | cons c l ih =>
    intro rest hq
    rw [List.cons_append, takeStr,
      if_neg (hq c (List.mem_cons_self c l)),
      ih rest (fun x hx => hq x (List.mem_cons_of_mem c hx))]

/-- `strOk` gives the quote-freedom `takeStr_append` needs. -/
theorem strOk_no_quote (s : String) (h : strOk s = true) :
    ∀ c ∈ s.data, ¬(c = '"') := by
  intro c hc
  rw [strOk, List.all_eq_true] at h
  have := h c hc
  simp only [Bool.and_eq_true, Bool.not_eq_true', decide_eq_false_iff_not]
    at this
  exact fun he => by simp [he] at this

/-- The decimal rendering of a nonzero natural starts with a digit. -/
theorem natChars_eq_cons (n : Nat) (h : n ≠ 0) :
    ∃ d ds, natChars n = digitChar d :: List.map digitChar ds ∧ d < 10 := by
  have hne : (Nat.digits 10 n).reverse ≠ [] := by
    simp [Nat.digits_ne_nil_iff_ne_zero, h]
  obtain ⟨d, ds, hds⟩ := List.exists_cons_of_ne_nil hne
  refine ⟨d, ds, by rw [natChars, hds, List.map_cons], ?_⟩
  exact Nat.digits_lt_base (by norm_num)
    (List.mem_reverse.1 (hds ▸ List.mem_cons_self d ds))

/-- Every rendered value starts with a character other than `]` (so the
array reader can tell an element from the closing bracket). -/
theorem renderV_head (v : JVal) :
    ∃ c l, renderV v = c :: l ∧ ¬(c = ']') := by
  cases v with
  | jnull => exact ⟨'n', _, rfl, by decide⟩
  | jbool b =>
    cases b
    · exact ⟨'f', _, rfl, by decide⟩
    · exact ⟨'t', _, rfl, by decide⟩
  | jnum n =>
    rw [renderV, intChars]
    split_ifs with h1 h2
    · exact ⟨'-', _, rfl, by decide⟩
    · exact ⟨'0', _, rfl, by decide⟩
    · have hn0 : n.toNat ≠ 0 := by omega
      obtain ⟨d, ds, hds, hd10⟩ := natChars_eq_cons n.toNat hn0
      refine ⟨digitChar d, _, hds, ?_⟩
      interval_cases d <;> decide
  | jstr s => exact ⟨'"', _, rfl, by decide⟩
  | jarr xs => exact ⟨'[', _, rfl, by decide⟩
  | jobj fs => exact ⟨'\x7b', _, rfl, by decide⟩

/-- What follows an array element never continues a number. -/
theorem sepOk_tail (xs : JArr) (rest : List Char) :
    sepOk (renderTail xs ++ ']' :: rest) = true := by
  cases xs <;> rfl

/-- What follows an object field never continues a number. -/
theorem sepOk_ftail (fs : JObj) (rest : List Char) :
    sepOk (renderFTail fs ++ '\x7d' :: rest) = true := by
  cases fs <;> rfl

end CoreJs
namespace CoreJs

theorem parseV_intChars (n : Int) (fuel : Nat) (rest : List Char)
    (hs : sepOk rest = true) :
    parseV (fuel + 1) (intChars n ++ rest) = some (.jnum n, rest) := by
  rw [intChars]
  split_ifs with h1 h2
  · have habs : n.natAbs ≠ 0 := by omega
    obtain ⟨d, ds, hds, hd10⟩ := natChars_eq_cons n.natAbs habs
    have hpd : parseDigits 0 (natChars n.natAbs ++ rest) = (n.natAbs, rest) :=
      parseDigits_natChars _ _ hs
    rw [List.cons_append]
    simp only [parseV]
    rw [if_neg (by decide), if_pos trivial]
    rw [hds, List.cons_append] at hpd ⊢
    simp only [digitChar_isDigit d hd10]
    simp [hpd]
    rw [abs_of_neg h1, neg_neg]
  · subst h2
    have hpd : parseDigits 0 (List.map digitChar [0] ++ rest) =
        ([0].foldl (fun a d => a * 10 + d) 0, rest) :=
      parseDigits_spec [0] 0 rest (by norm_num) hs
    simp only [List.map_cons, List.map_nil, List.singleton_append,
      List.foldl_cons, List.foldl_nil] at hpd
    have h0 : digitChar 0 = '0' := by decide
    rw [h0] at hpd
    rw [List.singleton_append]
    simp only [parseV]
    rw [if_pos (by decide)]
    simp [hpd]
  · have ht0 : n.toNat ≠ 0 := by omega
    obtain ⟨d, ds, hds, hd10⟩ := natChars_eq_cons n.toNat ht0
    have hpd : parseDigits 0 (natChars n.toNat ++ rest) = (n.toNat, rest) :=
      parseDigits_natChars _ _ hs
    rw [hds, List.cons_append] at hpd ⊢
    simp only [parseV]
    rw [if_pos (digitChar_isDigit d hd10)]
    simp [hpd]
    omega

end CoreJs
namespace CoreJs

mutual

theorem parse_renderV (v : JVal) : ∀ (fuel : Nat) (rest : List Char),
    wfV v = true → needV v ≤ fuel → sepOk rest = true →
    parseV fuel (renderV v ++ rest) = some (v, rest) := by
  intro fuel rest hwf hneed hsep
  cases v with
  | jnull =>
    cases fuel with
    | zero => simp [needV] at hneed
    | succ f => rfl
  | jbool b =>
    cases fuel with
    | zero => simp [needV] at hneed
    | succ f => cases b <;> rfl
  | jnum n =>
    cases fuel with
    | zero => simp [needV] at hneed
    | succ f => exact parseV_intChars n f rest hsep
  | jstr s =>
    cases fuel with
    | zero => simp [needV] at hneed
    | succ f =>
      have hq : ∀ c ∈ s.data, ¬(c = '"') :=
        strOk_no_quote s (by simpa [wfV] using hwf)
      simp only [renderV, List.cons_append, List.append_assoc,
        List.singleton_append, List.nil_append]
      simp only [parseV]
      rw [takeStr_append s.data rest hq]
      rfl
  | jarr xs =>
    cases fuel with
    | zero => simp [needV] at hneed
    | succ f =>
      have hxs : wfArr xs = true := by simpa [wfV] using hwf
      have hn : needArr xs ≤ f := by simp [needV] at hneed; omega
      simp only [renderV, List.cons_append, List.append_assoc,
        List.singleton_append, List.nil_append]
      simp only [parseV]
      rw [parse_renderElems xs f rest hxs hn]
      rfl
  | jobj fs =>
    cases fuel with
    | zero => simp [needV] at hneed
    | succ f =>
      have hfs : wfObj fs = true := by simpa [wfV] using hwf
      have hn : needObj fs ≤ f := by simp [needV] at hneed; omega
      simp only [renderV, List.cons_append, List.append_assoc,
        List.singleton_append, List.nil_append]
      simp only [parseV]
      rw [parse_renderFields fs f rest hfs hn]
      rfl

theorem parse_renderElems (xs : JArr) : ∀ (fuel : Nat) (rest : List Char),
    wfArr xs = true → needArr xs ≤ fuel →
    parseElems fuel (renderElems xs ++ ']' :: rest) = some (xs, rest) := by
  intro fuel rest hwf hneed
  cases xs with
  | anil =>
    cases fuel with
    | zero => simp [needArr] at hneed
    | succ f => simp [renderElems, parseElems]
  | acons v xs' =>
    cases fuel with
    | zero => simp [needArr] at hneed
    | succ f =>
      obtain ⟨c, l, hcl, hne⟩ := renderV_head v
      have hwv : wfV v = true := by
        simp [wfArr, Bool.and_eq_true] at hwf; exact hwf.1
      have hwx : wfArr xs' = true := by
        simp [wfArr, Bool.and_eq_true] at hwf; exact hwf.2
      have hnv : needV v ≤ f := by simp [needArr] at hneed; omega
      have hnx : needArr xs' ≤ f := by simp [needArr] at hneed; omega
      simp only [renderElems, List.append_assoc]
      simp only [parseElems]
      rw [hcl, List.cons_append]
      rw [if_neg (by simp [hne])]
      rw [← List.cons_append, ← hcl]
      simp only [parse_renderV v f (renderTail xs' ++ ']' :: rest) hwv hnv
          (sepOk_tail xs' rest),
        parse_renderATail xs' f rest hwx hnx]

theorem parse_renderATail (xs : JArr) : ∀ (fuel : Nat) (rest : List Char),
    wfArr xs = true → needArr xs ≤ fuel →
    parseATail fuel (renderTail xs ++ ']' :: rest) = some (xs, rest) := by
  intro fuel rest hwf hneed
  cases xs with
  | anil =>
    cases fuel with
    | zero => simp [needArr] at hneed
    | succ f => simp [renderTail, parseATail]
  | acons v xs' =>
    cases fuel with
    | zero => simp [needArr] at hneed
    | succ f =>
      have hwv : wfV v = true := by
        simp [wfArr, Bool.and_eq_true] at hwf; exact hwf.1
      have hwx : wfArr xs' = true := by
        simp [wfArr, Bool.and_eq_true] at hwf; exact hwf.2
      have hnv : needV v ≤ f := by simp [needArr] at hneed; omega
      have hnx : needArr xs' ≤ f := by simp [needArr] at hneed; omega
      simp only [renderTail, List.cons_append, List.append_assoc]
      simp only [parseATail]
      simp only [parse_renderV v f (renderTail xs' ++ ']' :: rest) hwv hnv
          (sepOk_tail xs' rest),
        parse_renderATail xs' f rest hwx hnx]

theorem parse_renderFields (fs : JObj) : ∀ (fuel : Nat) (rest : List Char),
    wfObj fs = true → needObj fs ≤ fuel →
    parseFields fuel (renderFields fs ++ '\x7d' :: rest) = some (fs, rest) := by
  intro fuel rest hwf hneed
  cases fs with
  | onil =>
    cases fuel with
    | zero => simp [needObj] at hneed
    | succ f => simp [renderFields, parseFields]
  | ocons k v fs' =>
    cases fuel with
    | zero => simp [needObj] at hneed
    | succ f =>
      have hw := hwf
      simp only [wfObj, Bool.and_eq_true] at hw
      obtain ⟨⟨⟨hk, -⟩, hwv⟩, hwx⟩ := hw
      have hnv : needV v ≤ f := by simp [needObj] at hneed; omega
      have hnx : needObj fs' ≤ f := by simp [needObj] at hneed; omega
      simp only [renderFields, List.cons_append, List.append_assoc,
        List.singleton_append]
      simp only [parseFields]
      simp only [takeStr_append k.data
          (':' :: (renderV v ++ (renderFTail fs' ++ '\x7d' :: rest)))
          (strOk_no_quote k hk),
        parse_renderV v f (renderFTail fs' ++ '\x7d' :: rest) hwv hnv
          (sepOk_ftail fs' rest),
        parse_renderOTail fs' f rest hwx hnx]

theorem parse_renderOTail (fs : JObj) : ∀ (fuel : Nat) (rest : List Char),
    wfObj fs = true → needObj fs ≤ fuel →
    parseOTail fuel (renderFTail fs ++ '\x7d' :: rest) = some (fs, rest) := by
  intro fuel rest hwf hneed
  cases fs with
  | onil =>
    cases fuel with
    | zero => simp [needObj] at hneed
    | succ f => simp [renderFTail, parseOTail]
  | ocons k v fs' =>
    cases fuel with
    | zero => simp [needObj] at hneed
    | succ f =>
      have hw := hwf
      simp only [wfObj, Bool.and_eq_true] at hw
      obtain ⟨⟨⟨hk, -⟩, hwv⟩, hwx⟩ := hw
      have hnv : needV v ≤ f := by simp [needObj] at hneed; omega
      have hnx : needObj fs' ≤ f := by simp [needObj] at hneed; omega
      simp only [renderFTail, List.cons_append, List.append_assoc,
        List.singleton_append]
      simp only [parseOTail]
      simp only [takeStr_append k.data
          (':' :: (renderV v ++ (renderFTail fs' ++ '\x7d' :: rest)))
          (strOk_no_quote k hk),
        parse_renderV v f (renderFTail fs' ++ '\x7d' :: rest) hwv hnv
          (sepOk_ftail fs' rest),
        parse_renderOTail fs' f rest hwx hnx]

end

end CoreJs

namespace CoreJs

mutual

theorem needV_le (v : JVal) : needV v ≤ 2 * (renderV v).length + 1 := by
  cases v with
  | jnull => simp [needV, renderV]
  | jbool b => cases b <;> simp [needV, renderV]
  | jnum n => simp [needV]
  | jstr s => simp [needV]
  | jarr xs =>
    have h := needArr_le_elems xs
    simp only [needV, renderV, List.length_cons, List.length_append,
      List.length_singleton] at h ⊢
    omega
  | jobj fs =>
    have h := needObj_le_fields fs
    simp only [needV, renderV, List.length_cons, List.length_append,
      List.length_singleton] at h ⊢
    omega

theorem needArr_le_elems (xs : JArr) :
    needArr xs ≤ 2 * (renderElems xs).length + 4 := by
  cases xs with
  | anil => simp [needArr, renderElems]
  | acons v rest =>
    have h1 := needV_le v
    have h2 := needArr_le_tail rest
    simp only [needArr, renderElems, List.length_append] at h1 h2 ⊢
    omega

theorem needArr_le_tail (xs : JArr) :
    needArr xs ≤ 2 * (renderTail xs).length + 2 := by
  cases xs with
  | anil => simp [needArr, renderTail]
  | acons v rest =>
    have h1 := needV_le v
    have h2 := needArr_le_tail rest
    simp only [needArr, renderTail, List.length_cons,
      List.length_append] at h1 h2 ⊢
    omega

theorem needObj_le_fields (fs : JObj) :
    needObj fs ≤ 2 * (renderFields fs).length + 4 := by
  cases fs with
  | onil => simp [needObj, renderFields]
  | ocons k v rest =>
    have h1 := needV_le v
    have h2 := needObj_le_ftail rest
    simp only [needObj, renderFields, List.length_cons,
      List.length_append] at h1 h2 ⊢
    omega

theorem needObj_le_ftail (fs : JObj) :
    needObj fs ≤ 2 * (renderFTail fs).length + 2 := by
  cases fs with
  | onil => simp [needObj, renderFTail]
  | ocons k v rest =>
    have h1 := needV_le v
    have h2 := needObj_le_ftail rest
    simp only [needObj, renderFTail, List.length_cons,
      List.length_append] at h1 h2 ⊢
    omega

end

/-- C10: round trip of the JSON helpers.  For every representable plain
object (integer numbers, escape-free strings, distinct keys, arbitrarily
nested arrays/objects) and every prototype, `fromJSON(proto, getJSON(obj))`
returns an object whose own enumerable properties are exactly those of
`obj` and whose prototype is `proto`. -/
theorem claim10_json_roundtrip (P : Type) (proto : P) (fs : JObj)
    (h : wfObj fs = true) :
    fromJSON P proto (getJSON (JVal.jobj fs)) =
      some { proto := proto, fields := fs } := by
  have hwf : wfV (JVal.jobj fs) = true := by simpa [wfV] using h
  have hb := needV_le (JVal.jobj fs)
  have hp := parse_renderV (JVal.jobj fs)
    (2 * (renderV (JVal.jobj fs)).length + 2) []
    hwf (by omega) rfl
  rw [List.append_nil] at hp
  simp only [fromJSON, JSONparse, getJSON, JSONstringify, String.length_mk]
  rw [hp]
  rfl

/-- C10 witness: a concrete nested object round trips with prototype 7. -/
theorem claim10_json_roundtrip_witness :
    fromJSON Nat 7 (getJSON (JVal.jobj exObj)) =
      some { proto := 7, fields := exObj } :=
  claim10_json_roundtrip Nat 7 exObj (by rfl)

end CoreJs
